import Mathlib

/-!
Zento guest-identity reconciliation: shallow embedding

This file embeds the guest-identity subsystem of the zento finance tracker:
the anonymous-session resolver and provisioner (`src/app/api/finance/*`
route helpers), the merge engine `mergeAnonIntoAuthedUser` with its
`events.signIn` caller (auth options module), the explicit merge entry
point `POST /api/anon/import`, and the transactions-route `GET`.

Database rows become records, tables become lists, and Prisma calls become
pure list operations.  SHA-256 appears only through lookups by hash, so it
is modelled by an arbitrary `tokenHash : String → String` parameter.
Timestamps are integers (milliseconds); `Date.now()` becomes a `now`
argument.  Row fields that no property here touches (`createdAt`,
`updatedAt`, `lastSeenAt`, `sortOrder`, amounts, flags, payment sources)
are elided; the opportunistic fire-and-forget `lastSeenAt` touch does not
influence any returned value and is likewise elided.
-/

namespace Zento

/-- A row of the `User` table: an owner of financial data.
`isAnonymous` marks guest identities. -/
structure User where
  id : String
  email : Option String
  isAnonymous : Bool
deriving DecidableEq

/-- A row of the `AnonSession` table: a device-bound credential mapping a
bearer token's hash to its owning user.  `expiresAt` is a nullable
millisecond timestamp. -/
structure AnonSession where
  id : String
  userId : String
  tokenHash : String
  expiresAt : Option Int
deriving DecidableEq

/-- A row of the `Category` table. -/
structure Category where
  id : String
  userId : String
  name : String
deriving DecidableEq

/-- A row of the `Transaction` table (claim-relevant columns only).
`categoryId` is nullable. -/
structure Txn where
  id : String
  userId : String
  categoryId : Option String
deriving DecidableEq

/-- The database state: the four claim-relevant tables. -/
structure DB where
  users : List User
  sessions : List AnonSession
  categories : List Category
  transactions : List Txn
deriving DecidableEq

/-- Model of `prisma.anonSession.findUnique({ where: { tokenHash } })`. -/
def findSessionByTokenHash (db : DB) (h : String) : Option AnonSession :=
  db.sessions.find? (fun s => s.tokenHash == h)

/-- Model of `prisma.user.findUnique({ where: { id } })`. -/
def findUserById (db : DB) (uid : String) : Option User :=
  db.users.find? (fun u => u.id == uid)

/-- Model of `prisma.user.findUnique({ where: { email } })`. -/
def findUserByEmail (db : DB) (e : String) : Option User :=
  db.users.find? (fun u => u.email == some e)

/-- Model of `prisma.category.findMany({ where: { userId } })`. -/
def categoriesOf (db : DB) (uid : String) : List Category :=
  db.categories.filter (fun c => c.userId == uid)

/-- Model of `prisma.transaction.findMany({ where: { userId } })`. -/
def transactionsOf (db : DB) (uid : String) : List Txn :=
  db.transactions.filter (fun t => t.userId == uid)

/-- Model of `anonSess.expiresAt && anonSess.expiresAt.getTime() < Date.now()`. -/
def isExpired (expiresAt : Option Int) (now : Int) : Bool :=
  match expiresAt with
  | none => false
  | some t => decide (t < now)

/-! ## Merge engine (`mergeAnonIntoAuthedUser`, auth options module) -/

/-- The in-memory `authedByName` map of the merge loop:
`Map<string, string>` from lowercased category name to category id,
as an association list with JavaScript `Map` semantics. -/
abbrev NameMap := List (String × String)

/-- Model of `name.toLowerCase()`: per-character lowering, written structurally on
the character list (equivalent to `String.toLower`, which is `String.map
Char.toLower`) so that it computes by kernel reduction. -/
def lowerStr (s : String) : String := ⟨s.data.map Char.toLower⟩

/-- Model of `Map.prototype.get`. -/
def mapGet (m : NameMap) (k : String) : Option String :=
  (m.find? (fun p => p.1 == k)).map (fun p => p.2)

/-- Model of `Map.prototype.set`: overwrite the entry if the key is present,
append it otherwise. -/
def mapSet (m : NameMap) (k v : String) : NameMap :=
  if m.any (fun p => p.1 == k) then
    m.map (fun p => if p.1 == k then (k, v) else p)
  else
    m ++ [(k, v)]

/-- Model of `new Map(authedCategories.map((c) => [c.name.toLowerCase(), c.id]))`:
entries are inserted in list order, later duplicates win. -/
def buildAuthedByName : List Category → NameMap → NameMap
  | [], m => m
  | c :: cs, m => buildAuthedByName cs (mapSet m (lowerStr c.name) c.id)

/-- Model of `tx.transaction.updateMany({ where: { userId, categoryId: fromCat },
data: { categoryId: toCat } })`. -/
def redirectTxns (txns : List Txn) (uid fromCat toCat : String) : List Txn :=
  txns.map (fun t =>
    if t.userId = uid ∧ t.categoryId = some fromCat then
      { t with categoryId := some toCat }
    else t)

/-- Model of `tx.category.delete({ where: { id } })`. -/
def deleteCategory (cats : List Category) (cid : String) : List Category :=
  cats.filter (fun c => c.id != cid)

/-- Model of `tx.category.update({ where: { id }, data: { userId } })`. -/
def moveCategory (cats : List Category) (cid uid : String) : List Category :=
  cats.map (fun c => if c.id = cid then { c with userId := uid } else c)

/-- Model of `tx.transaction.updateMany({ where: { userId: fromU },
data: { userId: toU } })`. -/
def moveTxnsToUser (txns : List Txn) (fromU toU : String) : List Txn :=
  txns.map (fun t => if t.userId = fromU then { t with userId := toU } else t)

/-- Model of `tx.anonSession.deleteMany({ where: { userId } })`. -/
def deleteSessionsOf (ss : List AnonSession) (uid : String) : List AnonSession :=
  ss.filter (fun s => s.userId != uid)

/-- Model of `tx.user.deleteMany({ where: { id, isAnonymous: true } })`. -/
def deleteAnonUser (us : List User) (uid : String) : List User :=
  us.filter (fun u => !(u.id == uid && u.isAnonymous))

/-- One iteration of the merge loop `for (const anonCat of anonCategories)`:
on a case-insensitive name collision, repoint the guest transactions of
that category at the existing authed category and delete the guest
category; otherwise move the category to the authed user and register its
name in the collision index. -/
def mergeCatStep (anonUserId finalId : String) (st : DB × NameMap)
    (anonCat : Category) : DB × NameMap :=
  let key := lowerStr anonCat.name
  match mapGet st.2 key with
  | some existingId =>
      ({ st.1 with
          transactions := redirectTxns st.1.transactions anonUserId anonCat.id existingId
          categories := deleteCategory st.1.categories anonCat.id },
       st.2)
  | none =>
      ({ st.1 with categories := moveCategory st.1.categories anonCat.id finalId },
       mapSet st.2 key anonCat.id)

/-- The whole merge loop over the snapshot of guest categories. -/
def mergeCatLoop (anonUserId finalId : String) :
    List Category → DB × NameMap → DB × NameMap
  | [], st => st
  | c :: cs, st => mergeCatLoop anonUserId finalId cs (mergeCatStep anonUserId finalId st c)

/-- Body of the merge transaction after the authed user has been resolved
to `finalAuthedUserId` (steps 3-7 of the algorithm): category
reconciliation, then the blanket transaction reassignment, then session
cleanup, then the defensive guest-user delete.  This code is verbatim
identical between `mergeAnonIntoAuthedUser` and `POST /api/anon/import`. -/
def mergeTxBody (db : DB) (anonUserId finalAuthedUserId : String) : DB :=
  let anonCategories := categoriesOf db anonUserId
  let authedByName := buildAuthedByName (categoriesOf db finalAuthedUserId) []
  let st := mergeCatLoop anonUserId finalAuthedUserId anonCategories (db, authedByName)
  { st.1 with
      transactions := moveTxnsToUser st.1.transactions anonUserId finalAuthedUserId
      sessions := deleteSessionsOf st.1.sessions anonUserId
      users := deleteAnonUser st.1.users anonUserId }

/-- The authed-user lookup of the merge transaction: by id, then (if the
id lookup failed and a non-empty email is at hand) by email. -/
def lookupAuthedUser (db : DB) (authedUserId : String) (authedEmail : Option String) :
    Option User :=
  match findUserById db authedUserId with
  | some u => some u
  | none =>
      match authedEmail with
      | some e => if e = "" then none else findUserByEmail db e
      | none => none

/-- The merge transaction of `mergeAnonIntoAuthedUser`: `none` models the
thrown `Authed user not found` error, which aborts (rolls back) the
transaction; `some (finalId, db)` is a successful commit. -/
def mergeTx (db : DB) (authedUserId : String) (authedEmail : Option String)
    (anonUserId : String) : Option (String × DB) :=
  match lookupAuthedUser db authedUserId authedEmail with
  | none => none
  | some u => some (u.id, mergeTxBody db anonUserId u.id)

/-- Outcome of one `mergeAnonIntoAuthedUser` call: an early return before
the transaction (`noop`), a committed transaction, or a transaction that
threw and rolled back (`failed`). -/
inductive MergeResult where
  | noop : MergeResult
  | committed : String → DB → MergeResult
  | failed : MergeResult
deriving DecidableEq

/-- Model of `mergeAnonIntoAuthedUser` (auth options module): read the bearer
cookie, resolve it through the session store, bail out on any
precondition miss, else run the merge transaction. -/
def mergeAnonIntoAuthedUser (tokenHash : String → String) (db : DB)
    (cookie : Option String) (now : Int) (authedUserId : String)
    (authedEmail : Option String) : MergeResult :=
  match cookie with
  | none => .noop
  | some raw =>
      match findSessionByTokenHash db (tokenHash raw) with
      | none => .noop
      | some anonSess =>
          if isExpired anonSess.expiresAt now then .noop
          else if anonSess.userId = "" ∨ anonSess.userId = authedUserId then .noop
          else
            match mergeTx db authedUserId authedEmail anonSess.userId with
            | none => .failed
            | some (fid, db1) => .committed fid db1

/-- The database left behind by a merge outcome: early returns and a
rolled-back transaction leave the pre-state. -/
def resultingDb (db : DB) : MergeResult → DB
  | .noop => db
  | .failed => db
  | .committed _ db1 => db1

/-- The `events.signIn` handler: call the merge in a `try/catch` that
swallows every failure ("Never block login if merge fails"), and perform
no cookie mutation whatsoever — the handler has no access to the
response, so the second component ("a clearing `Set-Cookie` header was
produced on this path") is constantly `false`. -/
def signInEventRun (tokenHash : String → String) (db : DB) (cookie : Option String)
    (now : Int) (userId : String) (email : Option String) : DB × Bool :=
  (resultingDb db (mergeAnonIntoAuthedUser tokenHash db cookie now userId email), false)

/-! ## Identity resolver (finance route helpers) -/

/-- The claim-relevant shape of the next-auth session object:
`session.user.id` (patched in via `callbacks.session`) and
`session.user.email`. -/
structure SessUser where
  id : Option String
  email : Option String
deriving DecidableEq

/-- Model of `getUserIdFromNextAuth`: prefer `session.user.id`; fall back to an
email lookup. -/
def getUserIdFromNextAuth (db : DB) (sess : Option SessUser) : Option String :=
  match sess with
  | none => none
  | some su =>
      match su.id with
      | some i => some i
      | none =>
          match su.email with
          | none => none
          | some e => if e = "" then none else (findUserByEmail db e).map (fun u => u.id)

/-- Model of `getUserIdFromAnonCookie`: hash the bearer cookie, look the hash up,
reject missing or expired sessions.  The best-effort `lastSeenAt` touch is
fire-and-forget and does not influence the returned owner. -/
def getUserIdFromAnonCookie (tokenHash : String → String) (db : DB)
    (cookie : Option String) (now : Int) : Option String :=
  match cookie with
  | none => none
  | some raw =>
      match findSessionByTokenHash db (tokenHash raw) with
      | none => none
      | some sess => if isExpired sess.expiresAt now then none else some sess.userId

/-- Model of `getUserIdOrNull`: authenticated identity first, then the anon
cookie, else no owner. -/
def getUserIdOrNull (tokenHash : String → String) (db : DB) (sess : Option SessUser)
    (cookie : Option String) (now : Int) : Option String :=
  match getUserIdFromNextAuth db sess with
  | some authed => some authed
  | none => getUserIdFromAnonCookie tokenHash db cookie now

/-- The constant `ANON_MAX_AGE_SECONDS = 60 * 60 * 24 * 180`. -/
def ANON_MAX_AGE_SECONDS : Int := 60 * 60 * 24 * 180

/-- Model of `crypto.randomBytes(32)`: the freshly generated token is 32 random
bytes (256 bits) rendered base64url. -/
def anonTokenNumBytes : Nat := 32

/-- The `Set-Cookie` directive built by `makeCookieHeader`: name
`zento_anon`, the plaintext token as value, `HttpOnly; SameSite=Lax`,
`Max-Age` of 180 days. -/
structure AnonCookieHeader where
  name : String
  value : String
  maxAge : Int
  httpOnly : Bool
  sameSiteLax : Bool
deriving DecidableEq

/-- Model of `makeCookieHeader(token)`. -/
def makeCookieHeader (token : String) : AnonCookieHeader :=
  { name := "zento_anon", value := token, maxAge := ANON_MAX_AGE_SECONDS,
    httpOnly := true, sameSiteLax := true }

/-- Model of `getUserIdOrCreateAnonForWrite`: reuse a resolvable owner; otherwise
provision one guest user together with one anon session storing only the
hash of the fresh token (a nested `create`), and return the new owner id
plus the `Set-Cookie` directive carrying the plaintext token.  The fresh
random token and the two database-generated ids enter as parameters. -/
def getUserIdOrCreateAnonForWrite (tokenHash : String → String) (db : DB)
    (sess : Option SessUser) (cookie : Option String) (now : Int)
    (freshToken freshUserId freshSessId : String) :
    DB × String × Option AnonCookieHeader :=
  match getUserIdOrNull tokenHash db sess cookie now with
  | some uid => (db, uid, none)
  | none =>
      let hashed := tokenHash freshToken
      let expiresAt := now + ANON_MAX_AGE_SECONDS * 1000
      let newUser : User := { id := freshUserId, email := none, isAnonymous := true }
      let newSess : AnonSession :=
        { id := freshSessId, userId := freshUserId, tokenHash := hashed,
          expiresAt := some expiresAt }
      ({ db with users := db.users ++ [newUser], sessions := db.sessions ++ [newSess] },
       freshUserId, some (makeCookieHeader freshToken))

/-! ## Read endpoints -/

/-- An HTTP response of a read endpoint: a JSON body or an error status. -/
inductive ReadResponse (α : Type) where
  | ok : α → ReadResponse α
  | error : Nat → ReadResponse α
deriving DecidableEq

/-- Model of `GET /api/finance/categories`: no owner resolves to an empty list
("keeps UI smooth"); otherwise the owner's categories (the `orderBy`
clause is elided: only membership matters to the properties here). -/
def categoriesGET (tokenHash : String → String) (db : DB) (sess : Option SessUser)
    (cookie : Option String) (now : Int) : ReadResponse (List Category) :=
  match getUserIdOrNull tokenHash db sess cookie now with
  | none => .ok []
  | some uid => .ok (categoriesOf db uid)

/-- The transactions-route `GET` (unnamed part_012): no owner yields
`401 Unauthorized`; otherwise the owner's transactions (query-string
filters and ordering elided). -/
def transactionsGET (tokenHash : String → String) (db : DB) (sess : Option SessUser)
    (cookie : Option String) (now : Int) : ReadResponse (List Txn) :=
  match getUserIdOrNull tokenHash db sess cookie now with
  | none => .error 401
  | some uid => .ok (transactionsOf db uid)

/-! ## Explicit merge entry point (`POST /api/anon/import`) -/

/-- The import transaction: identical to `mergeTx` except that the authed
user is looked up by id only — there is no email fallback, and a missing
row throws (aborting the transaction, modelled as `none`). -/
def importTx (db : DB) (authedUserId anonUserId : String) : Option (String × DB) :=
  match findUserById db authedUserId with
  | none => none
  | some u => some (u.id, mergeTxBody db anonUserId u.id)

/-- Model of `POST /api/anon/import`, as (resulting database, HTTP status, whether
a clearing `Set-Cookie` header was emitted).  `none` models the
transaction error propagating out of the handler: the response then
carries no `Set-Cookie`, so the bearer cookie is left intact. -/
def importPOST (tokenHash : String → String) (db : DB)
    (sessionUserId : Option String) (cookie : Option String) (now : Int) :
    Option (DB × Nat × Bool) :=
  match sessionUserId with
  | none => some (db, 401, false)
  | some authedUserId =>
      match cookie with
      | none => some (db, 302, false)
      | some raw =>
          match findSessionByTokenHash db (tokenHash raw) with
          | none => some (db, 302, true)
          | some anonSess =>
              if anonSess.userId = "" then some (db, 302, true)
              else if isExpired anonSess.expiresAt now then some (db, 302, true)
              else if anonSess.userId = authedUserId then some (db, 302, true)
              else
                match importTx db authedUserId anonSess.userId with
                | none => none
                | some (_, db1) => some (db1, 302, true)

/-! ## Discard action -/

/-- Modelled from the spec: the `/api/anon/discard` route handler is not
in the source tree — only the Merge Confirmation page's form posting to
it is.  Per the spec's Merge Confirmation Flow and external-interface
sections, Discard "clears the bearer cookie and deletes the guest
identity's sessions without reassigning any data", resolving the guest
identity from the device's bearer cookie through the session store.  The
second component records that the clearing `Set-Cookie` header was
emitted. -/
def discardPOST (tokenHash : String → String) (db : DB) (cookie : Option String) :
    DB × Bool :=
  match cookie with
  | none => (db, true)
  | some raw =>
      match findSessionByTokenHash db (tokenHash raw) with
      | none => (db, true)
      | some sess => ({ db with sessions := deleteSessionsOf db.sessions sess.userId }, true)

/-! ## Wellformedness of database states -/

/-- Category primary keys are unique. -/
abbrev uniqueCatIds (db : DB) : Prop :=
  (db.categories.map (fun c => c.id)).Nodup

/-- Token hashes are globally unique (`AnonSession_tokenHash_key`). -/
abbrev uniqueTokenHashes (db : DB) : Prop :=
  (db.sessions.map (fun s => s.tokenHash)).Nodup

/-- Referential integrity with common ownership: every non-null category
reference of a transaction names an existing category of the same
owner. -/
def refIntegrity (db : DB) : Prop :=
  ∀ t ∈ db.transactions, ∀ cid, t.categoryId = some cid →
    ∃ c ∈ db.categories, c.id = cid ∧ c.userId = t.userId

/-- Executable check deciding `refIntegrity` on concrete states. -/
def refIntegrityB (db : DB) : Bool :=
  db.transactions.all (fun t =>
    match t.categoryId with
    | none => true
    | some cid => db.categories.any (fun c => c.id == cid && c.userId == t.userId))

/-! ## Concrete states for witnesses and counterexamples -/

/-- A stand-in for SHA-256 in concrete scenarios. -/
def hashW : String → String := fun s => "h" ++ s

/-- The happy-path scenario: authed user `A` owns category `Food` with a
transaction; guest `G` (bearer token `tok`) owns category `food` with a
transaction. -/
def dbHappy : DB :=
  { users := [⟨"A", some "a@x", false⟩, ⟨"G", none, true⟩],
    sessions := [⟨"s1", "G", "htok", none⟩],
    categories := [⟨"a1", "A", "Food"⟩, ⟨"g1", "G", "food"⟩],
    transactions := [⟨"t1", "G", some "g1"⟩, ⟨"t2", "A", some "a1"⟩] }

/-- A state whose authed user owns two categories distinguished only by
case: legal under the case-sensitive per-owner uniqueness of the storage
layer. -/
def dbCaseDup : DB :=
  { users := [⟨"A", some "a@x", false⟩, ⟨"G", none, true⟩],
    sessions := [⟨"s1", "G", "htok", none⟩],
    categories := [⟨"a1", "A", "Food"⟩, ⟨"a2", "A", "FOOD"⟩],
    transactions := [] }

/-- A state in which the authed user's row exists under id `A2` with email
`a@x`, while the sign-in event reports id `A`: the id lookup misses and
only the email fallback finds the row. -/
def dbFallback : DB :=
  { users := [⟨"A2", some "a@x", false⟩, ⟨"G", none, true⟩],
    sessions := [⟨"s1", "G", "htok", none⟩],
    categories := [⟨"g1", "G", "food"⟩],
    transactions := [] }

/-- The empty database. -/
def dbEmpty : DB := { users := [], sessions := [], categories := [], transactions := [] }

/-- The state `dbCaseDup` is driven to by a committed merge: the guest
(who owned nothing) is gone and both case-colliding authed categories
survive untouched. -/
def dbCaseDupMerged : DB :=
  { users := [⟨"A", some "a@x", false⟩],
    sessions := [],
    categories := [⟨"a1", "A", "Food"⟩, ⟨"a2", "A", "FOOD"⟩],
    transactions := [] }

/-- The state `dbHappy` is driven to by a committed merge: the guest user,
its session and its colliding category are gone; both transactions hang
off the authed user's `Food` category. -/
def dbHappyMerged : DB :=
  { users := [⟨"A", some "a@x", false⟩],
    sessions := [],
    categories := [⟨"a1", "A", "Food"⟩],
    transactions := [⟨"t1", "A", some "a1"⟩, ⟨"t2", "A", some "a1"⟩] }

/-- The invariant carried through the merge loop: `a` is the guest owner,
`f` the resolved authed owner, `st` the current database and collision
index, `rem` the guest categories not yet processed.  `mapSound` says the
index only names live categories of the authed owner with the registered
lowercased name; `txOwn` is referential integrity weakened to allow a
guest transaction to point at an authed category (the state after a
redirect, before the blanket owner sweep). -/
structure LoopInv (a f : String) (st : DB × NameMap) (rem : List Category) : Prop where
  uniq : (st.1.categories.map (fun c => c.id)).Nodup
  remNodup : (rem.map (fun c => c.id)).Nodup
  remMem : ∀ c ∈ rem, c ∈ st.1.categories
  remAnon : ∀ c ∈ rem, c.userId = a
  anonRem : ∀ c ∈ st.1.categories, c.userId = a → c ∈ rem
  mapSound : ∀ p ∈ st.2, ∃ c ∈ st.1.categories,
    c.id = p.2 ∧ c.userId = f ∧ lowerStr c.name = p.1
  txOwn : ∀ t ∈ st.1.transactions, ∀ cid, t.categoryId = some cid →
    ∃ c ∈ st.1.categories, c.id = cid ∧ (c.userId = t.userId ∨ (t.userId = a ∧ c.userId = f))

/-- Pre-merge side condition for duplicate freedom: the categories of the
authed owner are pairwise case-insensitively distinct by name. -/
abbrev authedLowerDistinct (db : DB) (f : String) : Prop :=
  ∀ c1 ∈ db.categories, ∀ c2 ∈ db.categories,
    c1.userId = f → c2.userId = f → lowerStr c1.name = lowerStr c2.name → c1.id = c2.id

/-- The invariant `LoopInv` strengthened for duplicate freedom: the collision index
covers every lowercased name of the authed owner's categories, and those
lowercased names determine the category id. -/
structure LoopInv2 (a f : String) (st : DB × NameMap) (rem : List Category)
    extends LoopInv a f st rem : Prop where
  mapComplete : ∀ c ∈ st.1.categories, c.userId = f → mapGet st.2 (lowerStr c.name) ≠ none
  fidInj : ∀ c1 ∈ st.1.categories, ∀ c2 ∈ st.1.categories,
    c1.userId = f → c2.userId = f → lowerStr c1.name = lowerStr c2.name → c1.id = c2.id

/-! ## Plumbing lemmas -/

theorem refIntegrity_of_bool {db : DB} (h : refIntegrityB db = true) : refIntegrity db := by
  intro t ht cid hcid
  have ht2 := List.all_eq_true.mp h t ht
  rw [hcid] at ht2
  simp only [List.any_eq_true, Bool.and_eq_true, beq_iff_eq] at ht2
  obtain ⟨c, hc, h1, h2⟩ := ht2
  exact ⟨c, hc, h1, h2⟩

theorem findSession_some {db : DB} {h : String} {s : AnonSession}
    (hf : findSessionByTokenHash db h = some s) : s ∈ db.sessions ∧ s.tokenHash = h := by
  unfold findSessionByTokenHash at hf
  exact ⟨List.mem_of_find?_eq_some hf, by simpa using List.find?_some hf⟩

theorem findSession_none {db : DB} {h : String}
    (hf : findSessionByTokenHash db h = none) : ∀ s ∈ db.sessions, s.tokenHash ≠ h := by
  unfold findSessionByTokenHash at hf
  simpa using List.find?_eq_none.mp hf

theorem findUserById_some {db : DB} {uid : String} {u : User}
    (hf : findUserById db uid = some u) : u ∈ db.users ∧ u.id = uid := by
  unfold findUserById at hf
  exact ⟨List.mem_of_find?_eq_some hf, by simpa using List.find?_some hf⟩

theorem mapGet_some {m : NameMap} {k v : String} (h : mapGet m k = some v) :
    ∃ p ∈ m, p.1 = k ∧ p.2 = v := by
  simp only [mapGet, Option.map_eq_some'] at h
  obtain ⟨p, hp, hv⟩ := h
  exact ⟨p, List.mem_of_find?_eq_some hp, by simpa using List.find?_some hp, hv⟩

theorem mapGet_none {m : NameMap} {k : String} (h : mapGet m k = none) :
    ∀ p ∈ m, p.1 ≠ k := by
  simp only [mapGet, Option.map_eq_none', List.find?_eq_none, beq_iff_eq] at h
  exact h

theorem mem_mapSet {m : NameMap} {k v : String} {p : String × String}
    (h : p ∈ mapSet m k v) : p = (k, v) ∨ p ∈ m := by
  unfold mapSet at h
  split at h
  · obtain ⟨q, hq, hfq⟩ := List.mem_map.mp h
    by_cases hk : q.1 = k
    · left
      rw [← hfq]
      simp [hk]
    · right
      rw [← hfq]
      simp only [beq_iff_eq, hk, if_false]
      exact hq
  · rcases List.mem_append.mp h with h1 | h1
    · right; exact h1
    · left; simpa using h1

theorem mapGet_ne_none_iff {m : NameMap} {k : String} :
    mapGet m k ≠ none ↔ ∃ p ∈ m, p.1 = k := by
  constructor
  · intro h
    cases hg : mapGet m k with
    | none => exact absurd hg h
    | some v =>
        obtain ⟨p, hp, h1, _⟩ := mapGet_some hg
        exact ⟨p, hp, h1⟩
  · rintro ⟨p, hp, hk⟩ hnone
    exact (mapGet_none hnone p hp) hk

theorem mapSet_keeps {m : NameMap} {k v : String} (p : String × String) (hp : p ∈ m) :
    ∃ q ∈ mapSet m k v, q.1 = p.1 := by
  unfold mapSet
  split
  · have hm : (fun q : String × String => if q.1 == k then (k, v) else q) p ∈
        m.map (fun q => if q.1 == k then (k, v) else q) :=
      List.mem_map_of_mem _ hp
    refine ⟨_, hm, ?_⟩
    by_cases hk : p.1 = k
    · simp [hk]
    · simp [hk]
  · exact ⟨p, List.mem_append_left _ hp, rfl⟩

theorem mapSet_has_key (m : NameMap) (k v : String) :
    ∃ q ∈ mapSet m k v, q.1 = k := by
  unfold mapSet
  split
  · next h =>
      obtain ⟨p, hp, hpk⟩ := List.any_eq_true.mp h
      rw [beq_iff_eq] at hpk
      refine ⟨(k, v), ?_, rfl⟩
      have hf : (fun q : String × String => if q.1 == k then (k, v) else q) p = (k, v) := by
        simp [hpk]
      have hm := List.mem_map_of_mem
        (fun q : String × String => if q.1 == k then (k, v) else q) hp
      rw [hf] at hm
      exact hm
  · exact ⟨(k, v), List.mem_append_right _ (by simp), rfl⟩

theorem mapGet_mapSet_ne_none {m : NameMap} {k' : String} (k v : String)
    (h : mapGet m k' ≠ none) : mapGet (mapSet m k v) k' ≠ none := by
  rw [mapGet_ne_none_iff] at h ⊢
  obtain ⟨p, hp, hk⟩ := h
  obtain ⟨q, hq, hq1⟩ := mapSet_keeps p hp
  exact ⟨q, hq, hq1.trans hk⟩

theorem mapGet_mapSet_self_ne_none (m : NameMap) (k v : String) :
    mapGet (mapSet m k v) k ≠ none := by
  rw [mapGet_ne_none_iff]
  exact mapSet_has_key m k v

theorem mem_buildAuthedByName (cats : List Category) :
    ∀ (m : NameMap) (p : String × String), p ∈ buildAuthedByName cats m →
      p ∈ m ∨ ∃ c ∈ cats, p.1 = lowerStr c.name ∧ p.2 = c.id := by
  induction cats with
  | nil => intro m p h; exact Or.inl h
  | cons c cs ih =>
      intro m p h
      rcases ih _ _ h with h1 | h1
      · rcases mem_mapSet h1 with h2 | h2
        · right
          exact ⟨c, List.mem_cons_self c cs, by rw [h2], by rw [h2]⟩
        · left; exact h2
      · right
        obtain ⟨c', hc', hp⟩ := h1
        exact ⟨c', List.mem_cons_of_mem _ hc', hp⟩

theorem buildAuthedByName_keeps (cats : List Category) :
    ∀ (m : NameMap) (k : String), mapGet m k ≠ none →
      mapGet (buildAuthedByName cats m) k ≠ none := by
  induction cats with
  | nil => intro m k h; exact h
  | cons c cs ih => intro m k h; exact ih _ _ (mapGet_mapSet_ne_none _ _ h)

theorem buildAuthedByName_has (cats : List Category) :
    ∀ (m : NameMap) (c : Category), c ∈ cats →
      mapGet (buildAuthedByName cats m) (lowerStr c.name) ≠ none := by
  induction cats with
  | nil => intro m c h; cases h
  | cons c0 cs ih =>
      intro m c h
      rcases List.mem_cons.mp h with rfl | h1
      · exact buildAuthedByName_keeps cs _ _ (mapGet_mapSet_self_ne_none m _ _)
      · exact ih _ _ h1

/-! ## Structural facts about the merge loop -/

theorem mergeCatStep_cases (a f : String) (st : DB × NameMap) (c : Category) :
    (∃ eid, mapGet st.2 (lowerStr c.name) = some eid ∧
      (mergeCatStep a f st c).1.categories = deleteCategory st.1.categories c.id ∧
      (mergeCatStep a f st c).1.transactions = redirectTxns st.1.transactions a c.id eid ∧
      (mergeCatStep a f st c).1.sessions = st.1.sessions ∧
      (mergeCatStep a f st c).1.users = st.1.users ∧
      (mergeCatStep a f st c).2 = st.2) ∨
    (mapGet st.2 (lowerStr c.name) = none ∧
      (mergeCatStep a f st c).1.categories = moveCategory st.1.categories c.id f ∧
      (mergeCatStep a f st c).1.transactions = st.1.transactions ∧
      (mergeCatStep a f st c).1.sessions = st.1.sessions ∧
      (mergeCatStep a f st c).1.users = st.1.users ∧
      (mergeCatStep a f st c).2 = mapSet st.2 (lowerStr c.name) c.id) := by
  cases h : mapGet st.2 (lowerStr c.name) with
  | some eid =>
      left
      exact ⟨eid, rfl, by simp [mergeCatStep, h], by simp [mergeCatStep, h],
        by simp [mergeCatStep, h], by simp [mergeCatStep, h], by simp [mergeCatStep, h]⟩
  | none =>
      right
      exact ⟨rfl, by simp [mergeCatStep, h], by simp [mergeCatStep, h],
        by simp [mergeCatStep, h], by simp [mergeCatStep, h], by simp [mergeCatStep, h]⟩

theorem mergeCatLoop_cons (a f : String) (c : Category) (cs : List Category)
    (st : DB × NameMap) :
    mergeCatLoop a f (c :: cs) st = mergeCatLoop a f cs (mergeCatStep a f st c) := rfl

theorem mergeCatLoop_sessions (a f : String) (cs : List Category) :
    ∀ st : DB × NameMap, (mergeCatLoop a f cs st).1.sessions = st.1.sessions := by
  induction cs with
  | nil => intro st; rfl
  | cons c cs ih =>
      intro st
      rw [mergeCatLoop_cons, ih]
      rcases mergeCatStep_cases a f st c with ⟨_, _, _, _, hs, _, _⟩ | ⟨_, _, _, hs, _, _⟩ <;>
        exact hs

theorem mergeCatLoop_users (a f : String) (cs : List Category) :
    ∀ st : DB × NameMap, (mergeCatLoop a f cs st).1.users = st.1.users := by
  induction cs with
  | nil => intro st; rfl
  | cons c cs ih =>
      intro st
      rw [mergeCatLoop_cons, ih]
      rcases mergeCatStep_cases a f st c with ⟨_, _, _, _, _, hu, _⟩ | ⟨_, _, _, _, hu, _⟩ <;>
        exact hu

theorem mergeCatStep_txn_mem (a f : String) (st : DB × NameMap) (c : Category)
    {t : Txn} (ht : t ∈ st.1.transactions) :
    ∃ t1 ∈ (mergeCatStep a f st c).1.transactions, t1.id = t.id ∧ t1.userId = t.userId := by
  rcases mergeCatStep_cases a f st c with ⟨eid, _, _, htx, _⟩ | ⟨_, _, htx, _⟩
  · rw [htx]
    unfold redirectTxns
    have hm := List.mem_map_of_mem
      (fun t => if t.userId = a ∧ t.categoryId = some c.id then
        { t with categoryId := some eid } else t) ht
    refine ⟨_, hm, ?_⟩
    by_cases hc : t.userId = a ∧ t.categoryId = some c.id
    · simp [hc]
    · simp [hc]
  · rw [htx]
    exact ⟨t, ht, rfl, rfl⟩

theorem mergeCatLoop_txn_mem (a f : String) (cs : List Category) :
    ∀ (st : DB × NameMap) (t : Txn), t ∈ st.1.transactions →
      ∃ t1 ∈ (mergeCatLoop a f cs st).1.transactions, t1.id = t.id ∧ t1.userId = t.userId := by
  induction cs with
  | nil => intro st t ht; exact ⟨t, ht, rfl, rfl⟩
  | cons c cs ih =>
      intro st t ht
      obtain ⟨t1, ht1, hid, hu⟩ := mergeCatStep_txn_mem a f st c ht
      obtain ⟨t2, ht2, hid2, hu2⟩ := ih _ t1 ht1
      rw [mergeCatLoop_cons]
      exact ⟨t2, ht2, hid2.trans hid, hu2.trans hu⟩

theorem mem_deleteCategory {cats : List Category} {cid : String} {c : Category} :
    c ∈ deleteCategory cats cid ↔ c ∈ cats ∧ c.id ≠ cid := by
  unfold deleteCategory
  simp [List.mem_filter, bne_iff_ne]

theorem moveCategory_ids (cats : List Category) (cid uid : String) :
    (moveCategory cats cid uid).map (fun c => c.id) = cats.map (fun c => c.id) := by
  induction cats with
  | nil => rfl
  | cons c cs ih =>
      have hc : (if c.id = cid then { c with userId := uid } else c).id = c.id := by
        split <;> rfl
      calc (moveCategory (c :: cs) cid uid).map (fun c => c.id)
          = (if c.id = cid then { c with userId := uid } else c).id ::
              (moveCategory cs cid uid).map (fun c => c.id) := rfl
        _ = c.id :: cs.map (fun c => c.id) := by rw [hc, ih]

theorem deleteCategory_ids_sublist (cats : List Category) (cid : String) :
    ((deleteCategory cats cid).map (fun c => c.id)).Sublist (cats.map (fun c => c.id)) :=
  (List.filter_sublist cats).map (fun c => c.id)

theorem mergeCatStep_ids_not_mem (a f : String) (st : DB × NameMap) (c : Category)
    {cid : String} (h : cid ∉ st.1.categories.map (fun c => c.id)) :
    cid ∉ (mergeCatStep a f st c).1.categories.map (fun c => c.id) := by
  rcases mergeCatStep_cases a f st c with ⟨eid, _, hcat, _⟩ | ⟨_, hcat, _⟩
  · rw [hcat]
    intro hmem
    exact h ((deleteCategory_ids_sublist st.1.categories c.id).mem hmem)
  · rw [hcat, moveCategory_ids]
    exact h

theorem mergeCatLoop_ids_not_mem (a f : String) (cs : List Category) :
    ∀ (st : DB × NameMap) (cid : String), cid ∉ st.1.categories.map (fun c => c.id) →
      cid ∉ (mergeCatLoop a f cs st).1.categories.map (fun c => c.id) := by
  induction cs with
  | nil => intro st cid h; exact h
  | cons c cs ih =>
      intro st cid h
      rw [mergeCatLoop_cons]
      exact ih _ _ (mergeCatStep_ids_not_mem a f st c h)

/-! ## Membership lemmas for the row-level updates -/

theorem id_inj {cats : List Category} (h : (cats.map (fun c => c.id)).Nodup)
    {c1 c2 : Category} (h1 : c1 ∈ cats) (h2 : c2 ∈ cats) (hid : c1.id = c2.id) : c1 = c2 :=
  List.inj_on_of_nodup_map h h1 h2 hid

theorem mem_moveCategory_of_mem {cats : List Category} {cid uid : String} {c : Category}
    (h : c ∈ cats) (hne : c.id ≠ cid) : c ∈ moveCategory cats cid uid := by
  have hm := List.mem_map_of_mem
    (fun c0 : Category => if c0.id = cid then { c0 with userId := uid } else c0) h
  simpa [moveCategory, hne] using hm

theorem mem_moveCategory_inv {cats : List Category} {cid uid : String} {c1 : Category}
    (h : c1 ∈ moveCategory cats cid uid) :
    ∃ c0 ∈ cats, c1 = if c0.id = cid then { c0 with userId := uid } else c0 := by
  obtain ⟨c0, h0, heq⟩ := List.mem_map.mp h
  exact ⟨c0, h0, heq.symm⟩

theorem moved_mem {cats : List Category} {uid : String} {c : Category}
    (h : c ∈ cats) : { c with userId := uid } ∈ moveCategory cats c.id uid := by
  have hm := List.mem_map_of_mem
    (fun c0 : Category => if c0.id = c.id then { c0 with userId := uid } else c0) h
  simpa [moveCategory] using hm

theorem mem_redirectTxns_inv {txns : List Txn} {uid fromCat toCat : String} {t1 : Txn}
    (h : t1 ∈ redirectTxns txns uid fromCat toCat) :
    ∃ t0 ∈ txns, t1 = if t0.userId = uid ∧ t0.categoryId = some fromCat then
      { t0 with categoryId := some toCat } else t0 := by
  obtain ⟨t0, h0, heq⟩ := List.mem_map.mp h
  exact ⟨t0, h0, heq.symm⟩

theorem mem_redirectTxns_of_mem {txns : List Txn} {uid fromCat toCat : String} {t : Txn}
    (ht : t ∈ txns) (h : ¬ (t.userId = uid ∧ t.categoryId = some fromCat)) :
    t ∈ redirectTxns txns uid fromCat toCat := by
  have hm := List.mem_map_of_mem
    (fun t0 : Txn => if t0.userId = uid ∧ t0.categoryId = some fromCat then
      { t0 with categoryId := some toCat } else t0) ht
  simpa [redirectTxns, h] using hm

/-! ## The merge-loop invariant -/


theorem loopInv_step {a f : String} (hne : a ≠ f) {st : DB × NameMap} {c : Category}
    {cs : List Category} (hinv : LoopInv a f st (c :: cs)) :
    LoopInv a f (mergeCatStep a f st c) cs := by
  obtain ⟨uniq, remNodup, remMem, remAnon, anonRem, mapSound, txOwn⟩ := hinv
  have hcmem : c ∈ st.1.categories := remMem c (List.mem_cons_self c cs)
  have hcanon : c.userId = a := remAnon c (List.mem_cons_self c cs)
  have hmapNodup : (c.id :: cs.map (fun c => c.id)).Nodup := by
    simpa using remNodup
  have hremN : (cs.map (fun c => c.id)).Nodup := (List.nodup_cons.mp hmapNodup).2
  have hcid_not : c.id ∉ cs.map (fun c => c.id) := (List.nodup_cons.mp hmapNodup).1
  have hcs_ne : ∀ x ∈ cs, x.id ≠ c.id := by
    intro x hx he
    exact hcid_not (he ▸ List.mem_map_of_mem _ hx)
  rcases mergeCatStep_cases a f st c with ⟨eid, hget, hcat, htx, _, _, hmap⟩ |
    ⟨hget, hcat, htx, _, _, hmap⟩
  · -- collision branch: redirect the guest transactions, delete the guest category
    obtain ⟨p, hp, hpk, hpv⟩ := mapGet_some hget
    obtain ⟨ce, hce, hceid, hcef, hcelow⟩ := mapSound p hp
    have hcene : ce.id ≠ c.id := by
      intro heq
      have hcec : ce = c := id_inj uniq hce hcmem heq
      rw [hcec, hcanon] at hcef
      exact hne hcef
    have hce_surv : ce ∈ deleteCategory st.1.categories c.id :=
      mem_deleteCategory.mpr ⟨hce, hcene⟩
    constructor
    · rw [hcat]
      exact List.Nodup.sublist (deleteCategory_ids_sublist st.1.categories c.id) uniq
    · exact hremN
    · intro x hx
      rw [hcat]
      exact mem_deleteCategory.mpr ⟨remMem x (List.mem_cons_of_mem c hx), hcs_ne x hx⟩
    · intro x hx
      exact remAnon x (List.mem_cons_of_mem c hx)
    · intro x hx hxa
      rw [hcat] at hx
      obtain ⟨hx1, hx2⟩ := mem_deleteCategory.mp hx
      rcases List.mem_cons.mp (anonRem x hx1 hxa) with rfl | h
      · exact absurd rfl hx2
      · exact h
    · intro q hq
      rw [hmap] at hq
      obtain ⟨cw, hcw, hcwid, hcwf, hcwlow⟩ := mapSound q hq
      have hcwne : cw.id ≠ c.id := by
        intro heq
        have : cw = c := id_inj uniq hcw hcmem heq
        rw [this, hcanon] at hcwf
        exact hne hcwf
      rw [hcat]
      exact ⟨cw, mem_deleteCategory.mpr ⟨hcw, hcwne⟩, hcwid, hcwf, hcwlow⟩
    · intro t1 ht1 cid hcid
      rw [htx] at ht1
      rw [hcat]
      obtain ⟨t0, ht0, ht1eq⟩ := mem_redirectTxns_inv ht1
      by_cases hcond : t0.userId = a ∧ t0.categoryId = some c.id
      · rw [ht1eq, if_pos hcond] at hcid ⊢
        have heid : cid = eid := by
          have : some eid = some cid := hcid
          exact (Option.some.inj this).symm
        refine ⟨ce, hce_surv, ?_, Or.inr ⟨hcond.1, hcef⟩⟩
        rw [heid, ← hpv, hceid]
      · rw [ht1eq, if_neg hcond] at hcid ⊢
        obtain ⟨cw, hcw, hcwid, hdisj⟩ := txOwn t0 ht0 cid hcid
        have hcwne : cw.id ≠ c.id := by
          intro heq
          have hcwc : cw = c := id_inj uniq hcw hcmem heq
          rcases hdisj with h | h
          · apply hcond
            refine ⟨?_, ?_⟩
            · rw [← h, hcwc, hcanon]
            · rw [hcid, ← hcwid, hcwc]
          · rw [hcwc, hcanon] at h
            exact hne h.2
        exact ⟨cw, mem_deleteCategory.mpr ⟨hcw, hcwne⟩, hcwid, hdisj⟩
  · -- no-collision branch: move the guest category to the authed owner
    constructor
    · rw [hcat, moveCategory_ids]
      exact uniq
    · exact hremN
    · intro x hx
      rw [hcat]
      exact mem_moveCategory_of_mem (remMem x (List.mem_cons_of_mem c hx)) (hcs_ne x hx)
    · intro x hx
      exact remAnon x (List.mem_cons_of_mem c hx)
    · intro x hx hxa
      rw [hcat] at hx
      obtain ⟨x0, hx0, hxeq⟩ := mem_moveCategory_inv hx
      by_cases hx0id : x0.id = c.id
      · rw [hxeq, if_pos hx0id] at hxa
        exact absurd hxa.symm hne
      · rw [hxeq, if_neg hx0id] at hxa ⊢
        rcases List.mem_cons.mp (anonRem x0 hx0 hxa) with rfl | h
        · exact absurd rfl hx0id
        · exact h
    · intro q hq
      rw [hmap] at hq
      rw [hcat]
      rcases mem_mapSet hq with hq1 | hq1
      · refine ⟨{ c with userId := f }, moved_mem hcmem, ?_, rfl, ?_⟩
        · rw [hq1]
        · rw [hq1]
      · obtain ⟨cw, hcw, hcwid, hcwf, hcwlow⟩ := mapSound q hq1
        have hcwne : cw.id ≠ c.id := by
          intro heq
          have : cw = c := id_inj uniq hcw hcmem heq
          rw [this, hcanon] at hcwf
          exact hne hcwf
        exact ⟨cw, mem_moveCategory_of_mem hcw hcwne, hcwid, hcwf, hcwlow⟩
    · intro t1 ht1 cid hcid
      rw [htx] at ht1
      rw [hcat]
      obtain ⟨cw, hcw, hcwid, hdisj⟩ := txOwn t1 ht1 cid hcid
      by_cases hcwc : cw.id = c.id
      · have hcweq : cw = c := id_inj uniq hcw hcmem hcwc
        have ht1a : t1.userId = a := by
          rcases hdisj with h | h
          · rw [← h, hcweq, hcanon]
          · exact h.1
        refine ⟨{ c with userId := f }, moved_mem hcmem, ?_, Or.inr ⟨ht1a, rfl⟩⟩
        show c.id = cid
        rw [← hcwc, hcwid]
      · exact ⟨cw, mem_moveCategory_of_mem hcw hcwc, hcwid, hdisj⟩

theorem loopInv_loop {a f : String} (hne : a ≠ f) (cs : List Category) :
    ∀ st : DB × NameMap, LoopInv a f st cs →
      LoopInv a f (mergeCatLoop a f cs st) [] := by
  induction cs with
  | nil => intro st h; exact h
  | cons c cs ih =>
      intro st h
      rw [mergeCatLoop_cons]
      exact ih _ (loopInv_step hne h)

theorem loopInv_init {db : DB} (a f : String)
    (huniq : uniqueCatIds db) (href : refIntegrity db) :
    LoopInv a f (db, buildAuthedByName (categoriesOf db f) []) (categoriesOf db a) := by
  constructor
  · exact huniq
  · exact List.Nodup.sublist ((List.filter_sublist db.categories).map _) huniq
  · intro c hc
    exact List.mem_of_mem_filter hc
  · intro c hc
    simpa using List.of_mem_filter hc
  · intro c hc hca
    exact List.mem_filter.mpr ⟨hc, by simp [hca]⟩
  · intro p hp
    rcases mem_buildAuthedByName _ _ _ hp with h1 | ⟨c, hc, h1, h2⟩
    · exact absurd h1 (List.not_mem_nil p)
    · have hcf : c.userId = f := by simpa using List.of_mem_filter hc
      exact ⟨c, List.mem_of_mem_filter hc, h2.symm, hcf, h1.symm⟩
  · intro t ht cid hcid
    obtain ⟨cw, hcw, h1, h2⟩ := href t ht cid hcid
    exact ⟨cw, hcw, h1, Or.inl h2⟩

/-! ## Field equations for the transaction body -/

theorem mergeTxBody_categories (db : DB) (a f : String) :
    (mergeTxBody db a f).categories =
      (mergeCatLoop a f (categoriesOf db a)
        (db, buildAuthedByName (categoriesOf db f) [])).1.categories := rfl

theorem mergeTxBody_transactions (db : DB) (a f : String) :
    (mergeTxBody db a f).transactions =
      moveTxnsToUser (mergeCatLoop a f (categoriesOf db a)
        (db, buildAuthedByName (categoriesOf db f) [])).1.transactions a f := rfl

theorem mergeTxBody_sessions (db : DB) (a f : String) :
    (mergeTxBody db a f).sessions =
      deleteSessionsOf (mergeCatLoop a f (categoriesOf db a)
        (db, buildAuthedByName (categoriesOf db f) [])).1.sessions a := rfl

theorem mergeTxBody_users (db : DB) (a f : String) :
    (mergeTxBody db a f).users =
      deleteAnonUser (mergeCatLoop a f (categoriesOf db a)
        (db, buildAuthedByName (categoriesOf db f) [])).1.users a := rfl

/-- Core of the referential-integrity claim: the transaction body
preserves owner-matching category references. -/
theorem mergeTxBody_refIntegrity {db : DB} {a f : String} (hne : a ≠ f)
    (huniq : uniqueCatIds db) (href : refIntegrity db) :
    refIntegrity (mergeTxBody db a f) := by
  intro t1 ht1 cid hcid
  have hfin := loopInv_loop hne (categoriesOf db a)
    (db, buildAuthedByName (categoriesOf db f) []) (loopInv_init a f huniq href)
  rw [mergeTxBody_transactions] at ht1
  rw [mergeTxBody_categories]
  have hnoanon : ∀ cc ∈ (mergeCatLoop a f (categoriesOf db a)
      (db, buildAuthedByName (categoriesOf db f) [])).1.categories, cc.userId ≠ a := by
    intro cc hcc hcca
    exact absurd (hfin.anonRem cc hcc hcca) (List.not_mem_nil cc)
  obtain ⟨t0, ht0, heq⟩ := List.mem_map.mp ht1
  by_cases hta : t0.userId = a
  · have ht1eq : t1 = { t0 with userId := f } := by
      rw [← heq]
      simp [hta]
    have hcid0 : t0.categoryId = some cid := by
      rw [ht1eq] at hcid
      exact hcid
    obtain ⟨cw, hcw, hcwid, hdisj⟩ := hfin.txOwn t0 ht0 cid hcid0
    have hcwf : cw.userId = f := by
      rcases hdisj with h | h
      · rw [hta] at h
        exact absurd h (hnoanon cw hcw)
      · exact h.2
    refine ⟨cw, hcw, hcwid, ?_⟩
    rw [ht1eq, hcwf]
  · have ht1eq : t1 = t0 := by
      rw [← heq]
      simp [hta]
    rw [ht1eq] at hcid ⊢
    obtain ⟨cw, hcw, hcwid, hdisj⟩ := hfin.txOwn t0 ht0 cid hcid
    rcases hdisj with h | h
    · exact ⟨cw, hcw, hcwid, h⟩
    · exact absurd h.1 hta

/-! ## Persistence through the merge loop (no-data-loss machinery) -/

theorem deleteCategory_id_not_mem (cats : List Category) (cid : String) :
    cid ∉ (deleteCategory cats cid).map (fun c => c.id) := by
  intro h
  obtain ⟨x, hx, hxid⟩ := List.mem_map.mp h
  exact (mem_deleteCategory.mp hx).2 hxid

theorem not_mem_ids_iff {cats : List Category} {cid : String} :
    cid ∉ cats.map (fun c => c.id) ↔ ∀ c1 ∈ cats, c1.id ≠ cid := by
  constructor
  · intro h c1 hc1 he
    exact h (he ▸ List.mem_map_of_mem _ hc1)
  · rintro h hmem
    obtain ⟨x, hx, hxe⟩ := List.mem_map.mp hmem
    exact h x hx hxe

theorem moveTxnsToUser_mem_of {txns : List Txn} {fromU toU : String} {t : Txn}
    (ht : t ∈ txns) (h : t.userId = fromU) :
    { t with userId := toU } ∈ moveTxnsToUser txns fromU toU := by
  have hm := List.mem_map_of_mem
    (fun t0 : Txn => if t0.userId = fromU then { t0 with userId := toU } else t0) ht
  simpa [moveTxnsToUser, h] using hm

/-- A category of the authed owner, once present, survives the rest of
the loop unchanged. -/
theorem loop_cat_persist {a f : String} (hne : a ≠ f) (cs : List Category) :
    ∀ (st : DB × NameMap) (ce : Category), LoopInv a f st cs → ce ∈ st.1.categories →
      ce.userId = f → ce ∈ (mergeCatLoop a f cs st).1.categories := by
  induction cs with
  | nil => intro st ce _ h _; exact h
  | cons c cs ih =>
      intro st ce hinv hce hcef
      rw [mergeCatLoop_cons]
      have hcmem : c ∈ st.1.categories := hinv.remMem c (List.mem_cons_self c cs)
      have hcanon : c.userId = a := hinv.remAnon c (List.mem_cons_self c cs)
      have hcene : ce.id ≠ c.id := by
        intro heq
        have hcec : ce = c := id_inj hinv.uniq hce hcmem heq
        rw [hcec, hcanon] at hcef
        exact hne hcef
      have hinv' := loopInv_step hne hinv
      rcases mergeCatStep_cases a f st c with ⟨eid, _, hcat, _⟩ | ⟨_, hcat, _⟩
      · exact ih _ ce hinv' (by rw [hcat]; exact mem_deleteCategory.mpr ⟨hce, hcene⟩) hcef
      · exact ih _ ce hinv' (by rw [hcat]; exact mem_moveCategory_of_mem hce hcene) hcef

/-- A transaction already pointing at a category of the authed owner
survives the rest of the loop unchanged. -/
theorem loop_txn_persist {a f : String} (hne : a ≠ f) (cs : List Category) :
    ∀ (st : DB × NameMap) (t : Txn) (ce : Category), LoopInv a f st cs →
      t ∈ st.1.transactions → t.categoryId = some ce.id →
      ce ∈ st.1.categories → ce.userId = f →
      t ∈ (mergeCatLoop a f cs st).1.transactions := by
  induction cs with
  | nil => intro st t ce _ ht _ _ _; exact ht
  | cons c cs ih =>
      intro st t ce hinv ht hcid hce hcef
      rw [mergeCatLoop_cons]
      have hcmem : c ∈ st.1.categories := hinv.remMem c (List.mem_cons_self c cs)
      have hcanon : c.userId = a := hinv.remAnon c (List.mem_cons_self c cs)
      have hcene : ce.id ≠ c.id := by
        intro heq
        have hcec : ce = c := id_inj hinv.uniq hce hcmem heq
        rw [hcec, hcanon] at hcef
        exact hne hcef
      have hinv' := loopInv_step hne hinv
      rcases mergeCatStep_cases a f st c with ⟨eid, _, hcat, htx, _⟩ | ⟨_, hcat, htx, _⟩
      · refine ih _ t ce hinv' ?_ hcid ?_ hcef
        · rw [htx]
          apply mem_redirectTxns_of_mem ht
          rintro ⟨_, hx⟩
          rw [hcid] at hx
          exact hcene (Option.some.inj hx)
        · rw [hcat]
          exact mem_deleteCategory.mpr ⟨hce, hcene⟩
      · refine ih _ t ce hinv' ?_ hcid ?_ hcef
        · rw [htx]
          exact ht
        · rw [hcat]
          exact mem_moveCategory_of_mem hce hcene

/-- The per-category dichotomy of the merge loop: each pending guest
category either ends up owned by the authed owner under its own id, or is
gone, with a case-insensitively same-named authed category present and
every guest transaction that referenced it repointed there. -/
theorem loop_c1 {a f : String} (hne : a ≠ f) (cs : List Category) :
    ∀ (st : DB × NameMap) (c : Category), LoopInv a f st cs → c ∈ cs →
      (∃ c1 ∈ (mergeCatLoop a f cs st).1.categories, c1.id = c.id ∧ c1.userId = f) ∨
      ((∀ c1 ∈ (mergeCatLoop a f cs st).1.categories, c1.id ≠ c.id) ∧
       ∃ tgt ∈ (mergeCatLoop a f cs st).1.categories, tgt.userId = f ∧
         lowerStr tgt.name = lowerStr c.name ∧
         ∀ t ∈ st.1.transactions, t.userId = a → t.categoryId = some c.id →
           ∃ t1 ∈ (mergeCatLoop a f cs st).1.transactions,
             t1.id = t.id ∧ t1.userId = t.userId ∧ t1.categoryId = some tgt.id) := by
  induction cs with
  | nil => intro st c _ hc; exact absurd hc (List.not_mem_nil c)
  | cons c0 cs ih =>
      intro st c hinv hc
      have hc0mem : c0 ∈ st.1.categories := hinv.remMem c0 (List.mem_cons_self c0 cs)
      have hc0anon : c0.userId = a := hinv.remAnon c0 (List.mem_cons_self c0 cs)
      have hinv' := loopInv_step hne hinv
      rw [mergeCatLoop_cons]
      rcases List.mem_cons.mp hc with rfl | hcs
      · -- the head category is processed by this step
        rcases mergeCatStep_cases a f st c with ⟨eid, hget, hcat, htx, _, _, hmap⟩ |
          ⟨hget, hcat, htx, _, _, hmap⟩
        · -- collision: deleted, transactions redirected to the index entry
          obtain ⟨p, hp, hpk, hpv⟩ := mapGet_some hget
          obtain ⟨ce, hce, hceid, hcef, hcelow⟩ := hinv.mapSound p hp
          have hcene : ce.id ≠ c.id := by
            intro heq
            have hcec : ce = c := id_inj hinv.uniq hce hc0mem heq
            rw [hcec, hc0anon] at hcef
            exact hne hcef
          have hce' : ce ∈ (mergeCatStep a f st c).1.categories := by
            rw [hcat]
            exact mem_deleteCategory.mpr ⟨hce, hcene⟩
          right
          constructor
          · rw [not_mem_ids_iff.symm]
            apply mergeCatLoop_ids_not_mem
            rw [hcat]
            exact deleteCategory_id_not_mem st.1.categories c.id
          · refine ⟨ce, loop_cat_persist hne cs _ ce hinv' hce' hcef, hcef, ?_, ?_⟩
            · rw [hcelow, hpk]
            · intro t ht hta htc
              have ht1 : { t with categoryId := some eid } ∈
                  (mergeCatStep a f st c).1.transactions := by
                rw [htx]
                have hm := List.mem_map_of_mem
                  (fun t0 : Txn => if t0.userId = a ∧ t0.categoryId = some c.id then
                    { t0 with categoryId := some eid } else t0) ht
                have hfe : (fun t0 : Txn => if t0.userId = a ∧ t0.categoryId = some c.id then
                    { t0 with categoryId := some eid } else t0) t =
                    { t with categoryId := some eid } := by
                  simp only [hta, htc, and_self, if_pos]
                rw [hfe] at hm
                exact hm
              have heid : (some eid : Option String) = some ce.id := by
                rw [hceid, hpv]
              refine ⟨{ t with categoryId := some eid },
                loop_txn_persist hne cs _ _ ce hinv' ht1 ?_ hce' hcef, rfl, rfl, ?_⟩
              · exact heid
              · exact heid
        · -- no collision: moved to the authed owner in place
          left
          have hmv : { c with userId := f } ∈ (mergeCatStep a f st c).1.categories := by
            rw [hcat]
            exact moved_mem hc0mem
          exact ⟨{ c with userId := f },
            loop_cat_persist hne cs _ _ hinv' hmv rfl, rfl, rfl⟩
      · -- the category is processed later in the loop
        have hne0 : c.id ≠ c0.id := by
          intro heq
          have hmapNodup : (c0.id :: cs.map (fun x => x.id)).Nodup := by
            simpa using hinv.remNodup
          exact (List.nodup_cons.mp hmapNodup).1 (heq ▸ List.mem_map_of_mem _ hcs)
        have htrans : ∀ t ∈ st.1.transactions, t.userId = a → t.categoryId = some c.id →
            t ∈ (mergeCatStep a f st c0).1.transactions := by
          intro t ht _ htc
          rcases mergeCatStep_cases a f st c0 with ⟨eid, _, _, htx, _⟩ | ⟨_, _, htx, _⟩
          · rw [htx]
            apply mem_redirectTxns_of_mem ht
            rintro ⟨_, hx⟩
            rw [htc] at hx
            exact hne0 (Option.some.inj hx)
          · rw [htx]
            exact ht
        rcases ih _ c hinv' hcs with h | ⟨h1, tgt, htgt, htgtf, htgtlow, h2⟩
        · exact Or.inl h
        · refine Or.inr ⟨h1, tgt, htgt, htgtf, htgtlow, ?_⟩
          intro t ht hta htc
          exact h2 t (htrans t ht hta htc) hta htc

/-- Assembled no-data-loss property of the transaction body: every guest
category survives under the authed owner or is deleted with its
transactions repointed at a case-insensitively same-named authed
category, and every guest transaction ends up owned by the authed
owner. -/
theorem mergeTxBody_no_data_loss {db : DB} {a f : String} (hne : a ≠ f)
    (huniq : uniqueCatIds db) (href : refIntegrity db) :
    (∀ c ∈ db.categories, c.userId = a →
      (∃ c1 ∈ (mergeTxBody db a f).categories, c1.id = c.id ∧ c1.userId = f) ∨
      ((∀ c1 ∈ (mergeTxBody db a f).categories, c1.id ≠ c.id) ∧
       ∃ tgt ∈ (mergeTxBody db a f).categories, tgt.userId = f ∧
         lowerStr tgt.name = lowerStr c.name ∧
         ∀ t ∈ db.transactions, t.categoryId = some c.id →
           ∃ t1 ∈ (mergeTxBody db a f).transactions,
             t1.id = t.id ∧ t1.userId = f ∧ t1.categoryId = some tgt.id)) ∧
    (∀ t ∈ db.transactions, t.userId = a →
      ∃ t1 ∈ (mergeTxBody db a f).transactions, t1.id = t.id ∧ t1.userId = f) := by
  have hinv0 := loopInv_init a f huniq href
  constructor
  · intro c hc hca
    have hcrem : c ∈ categoriesOf db a := List.mem_filter.mpr ⟨hc, by simp [hca]⟩
    rcases loop_c1 hne (categoriesOf db a) _ c hinv0 hcrem with
      ⟨c1, hc1, hc1id, hc1f⟩ | ⟨h1, tgt, htgt, htgtf, htgtlow, h2⟩
    · left
      rw [mergeTxBody_categories]
      exact ⟨c1, hc1, hc1id, hc1f⟩
    · right
      rw [mergeTxBody_categories]
      refine ⟨h1, tgt, htgt, htgtf, htgtlow, ?_⟩
      intro t ht htc
      have hta : t.userId = a := by
        obtain ⟨cw, hcw, hcwid, hcwu⟩ := href t ht c.id htc
        have hcwc : cw = c := id_inj huniq hcw hc hcwid
        rw [← hcwu, hcwc, hca]
      obtain ⟨t1, ht1, ht1id, ht1u, ht1c⟩ := h2 t ht hta htc
      rw [mergeTxBody_transactions]
      exact ⟨{ t1 with userId := f }, moveTxnsToUser_mem_of ht1 (ht1u.trans hta),
        ht1id, rfl, ht1c⟩
  · intro t ht hta
    obtain ⟨t1, ht1, ht1id, ht1u⟩ := mergeCatLoop_txn_mem a f (categoriesOf db a)
      (db, buildAuthedByName (categoriesOf db f) []) t ht
    rw [mergeTxBody_transactions]
    exact ⟨{ t1 with userId := f }, moveTxnsToUser_mem_of ht1 (ht1u.trans hta), ht1id, rfl⟩

/-! ## The duplicate-freedom invariant (merge loop, strengthened) -/



theorem loopInv2_step {a f : String} (hne : a ≠ f) {st : DB × NameMap} {c : Category}
    {cs : List Category} (hinv : LoopInv2 a f st (c :: cs)) :
    LoopInv2 a f (mergeCatStep a f st c) cs := by
  obtain ⟨base, mapComplete, fidInj⟩ := hinv
  have hcmem : c ∈ st.1.categories := base.remMem c (List.mem_cons_self c cs)
  have hcanon : c.userId = a := base.remAnon c (List.mem_cons_self c cs)
  refine ⟨loopInv_step hne base, ?_, ?_⟩
  · -- mapComplete is preserved
    rcases mergeCatStep_cases a f st c with ⟨eid, hget, hcat, _, _, _, hmap⟩ |
      ⟨hget, hcat, _, _, _, hmap⟩
    · intro x hx hxf
      rw [hcat] at hx
      rw [hmap]
      exact mapComplete x (mem_deleteCategory.mp hx).1 hxf
    · intro x hx hxf
      rw [hcat] at hx
      rw [hmap]
      obtain ⟨x0, hx0, hxeq⟩ := mem_moveCategory_inv hx
      by_cases hx0id : x0.id = c.id
      · have hx0c : x0 = c := id_inj base.uniq hx0 hcmem hx0id
        rw [hxeq, if_pos hx0id, hx0c]
        exact mapGet_mapSet_self_ne_none st.2 _ _
      · rw [hxeq, if_neg hx0id]
        rw [hxeq, if_neg hx0id] at hxf
        exact mapGet_mapSet_ne_none _ _ (mapComplete x0 hx0 hxf)
  · -- fidInj is preserved
    rcases mergeCatStep_cases a f st c with ⟨eid, hget, hcat, _, _, _, hmap⟩ |
      ⟨hget, hcat, _, _, _, hmap⟩
    · intro x1 h1 x2 h2 hf1 hf2 hlow
      rw [hcat] at h1 h2
      exact fidInj x1 (mem_deleteCategory.mp h1).1 x2 (mem_deleteCategory.mp h2).1 hf1 hf2 hlow
    · intro x1 h1 x2 h2 hf1 hf2 hlow
      rw [hcat] at h1 h2
      obtain ⟨x01, h01, he1⟩ := mem_moveCategory_inv h1
      obtain ⟨x02, h02, he2⟩ := mem_moveCategory_inv h2
      by_cases hid1 : x01.id = c.id <;> by_cases hid2 : x02.id = c.id
      · rw [he1, if_pos hid1, he2, if_pos hid2]
        rw [hid1, hid2]
      · -- x1 is the freshly moved guest category, x2 an original authed one
        have h01c : x01 = c := id_inj base.uniq h01 hcmem hid1
        rw [he2, if_neg hid2] at hf2 hlow
        rw [he1, if_pos hid1, h01c] at hlow
        exact absurd (mapComplete x02 h02 hf2) (by rw [← hlow]; simpa using hget)
      · have h02c : x02 = c := id_inj base.uniq h02 hcmem hid2
        rw [he1, if_neg hid1] at hf1 hlow
        rw [he2, if_pos hid2, h02c] at hlow
        exact absurd (mapComplete x01 h01 hf1) (by rw [hlow]; simpa using hget)
      · rw [he1, if_neg hid1] at hf1 hlow ⊢
        rw [he2, if_neg hid2] at hf2 hlow ⊢
        exact fidInj x01 h01 x02 h02 hf1 hf2 hlow

theorem loopInv2_loop {a f : String} (hne : a ≠ f) (cs : List Category) :
    ∀ st : DB × NameMap, LoopInv2 a f st cs →
      LoopInv2 a f (mergeCatLoop a f cs st) [] := by
  induction cs with
  | nil => intro st h; exact h
  | cons c cs ih =>
      intro st h
      rw [mergeCatLoop_cons]
      exact ih _ (loopInv2_step hne h)

theorem loopInv2_init {db : DB} (a f : String)
    (huniq : uniqueCatIds db) (href : refIntegrity db) (hdist : authedLowerDistinct db f) :
    LoopInv2 a f (db, buildAuthedByName (categoriesOf db f) []) (categoriesOf db a) := by
  refine ⟨loopInv_init a f huniq href, ?_, ?_⟩
  · intro c hc hcf
    have : c ∈ categoriesOf db f := List.mem_filter.mpr ⟨hc, by simp [hcf]⟩
    exact buildAuthedByName_has (categoriesOf db f) [] c this
  · exact hdist

/-- Core of the duplicate-freedom claim. -/
theorem mergeTxBody_no_dup {db : DB} {a f : String} (hne : a ≠ f)
    (huniq : uniqueCatIds db) (href : refIntegrity db) (hdist : authedLowerDistinct db f) :
    ((mergeTxBody db a f).categories.map (fun c => c.id)).Nodup ∧
    ∀ c1 ∈ (mergeTxBody db a f).categories, ∀ c2 ∈ (mergeTxBody db a f).categories,
      c1.userId = f → c2.userId = f → c1 ≠ c2 →
      lowerStr c1.name ≠ lowerStr c2.name := by
  have hfin := loopInv2_loop hne (categoriesOf db a)
    (db, buildAuthedByName (categoriesOf db f) []) (loopInv2_init a f huniq href hdist)
  constructor
  · rw [mergeTxBody_categories]
    exact hfin.uniq
  · intro c1 h1 c2 h2 hf1 hf2 hne12 hlow
    rw [mergeTxBody_categories] at h1 h2
    have hid := hfin.fidInj c1 h1 c2 h2 hf1 hf2 hlow
    exact hne12 (id_inj hfin.uniq h1 h2 hid)

/-! ## Inversion of the merge entry points -/

theorem mem_deleteSessionsOf {ss : List AnonSession} {uid : String} {s : AnonSession} :
    s ∈ deleteSessionsOf ss uid ↔ s ∈ ss ∧ s.userId ≠ uid := by
  unfold deleteSessionsOf
  simp [List.mem_filter, bne_iff_ne]

theorem mergeTx_some_inv {db : DB} {uid : String} {em : Option String} {anonId fid : String}
    {db1 : DB} (h : mergeTx db uid em anonId = some (fid, db1)) :
    ∃ u, lookupAuthedUser db uid em = some u ∧ fid = u.id ∧
      db1 = mergeTxBody db anonId u.id := by
  unfold mergeTx at h
  cases hl : lookupAuthedUser db uid em with
  | none =>
      rw [hl] at h
      exact Option.noConfusion h
  | some u =>
      rw [hl] at h
      have hpair := Option.some.inj h
      exact ⟨u, rfl, (congrArg Prod.fst hpair).symm, (congrArg Prod.snd hpair).symm⟩

theorem merge_committed_inv {tokenHash : String → String} {db : DB} {cookie : Option String}
    {now : Int} {uid : String} {em : Option String} {fid : String} {db1 : DB}
    (hc : mergeAnonIntoAuthedUser tokenHash db cookie now uid em = .committed fid db1) :
    ∃ raw s, cookie = some raw ∧ findSessionByTokenHash db (tokenHash raw) = some s ∧
      isExpired s.expiresAt now = false ∧ s.userId ≠ "" ∧ s.userId ≠ uid ∧
      mergeTx db uid em s.userId = some (fid, db1) := by
  cases cookie with
  | none => exact MergeResult.noConfusion hc
  | some raw =>
      cases hfs : findSessionByTokenHash db (tokenHash raw) with
      | none =>
          have hred : mergeAnonIntoAuthedUser tokenHash db (some raw) now uid em = .noop := by
            simp only [mergeAnonIntoAuthedUser, hfs]
          rw [hred] at hc
          exact MergeResult.noConfusion hc
      | some s =>
          have hred : mergeAnonIntoAuthedUser tokenHash db (some raw) now uid em =
              (if isExpired s.expiresAt now then .noop
               else if s.userId = "" ∨ s.userId = uid then .noop
               else match mergeTx db uid em s.userId with
                 | none => .failed
                 | some (fid1, db2) => .committed fid1 db2) := by
            simp only [mergeAnonIntoAuthedUser, hfs]
          rw [hred] at hc
          by_cases hexp : isExpired s.expiresAt now = true
          · rw [if_pos hexp] at hc
            exact MergeResult.noConfusion hc
          · rw [if_neg hexp] at hc
            by_cases hid : s.userId = "" ∨ s.userId = uid
            · rw [if_pos hid] at hc
              exact MergeResult.noConfusion hc
            · rw [if_neg hid] at hc
              push_neg at hid
              cases hmt : mergeTx db uid em s.userId with
              | none =>
                  rw [hmt] at hc
                  exact MergeResult.noConfusion hc
              | some pr =>
                  rw [hmt] at hc
                  refine ⟨raw, s, rfl, hfs, by simpa using hexp, hid.1, hid.2, ?_⟩
                  cases pr with
                  | mk fid1 db2 =>
                      cases hc
                      exact hmt

/-! ## Claim theorems -/

/-- C1.  No data loss through merge: for every pre-merge state (with
unique category ids and owner-consistent category references) on which
the merge transaction commits for guest `anonId` into the resolved authed
identity `fid`, every guest category either survives under its own id
owned by `fid`, or is gone from the store while a case-insensitively
same-named category owned by `fid` exists and every transaction that
referenced the deleted category now references it; and every guest
transaction is owned by `fid`. -/
theorem merge_no_data_loss {db : DB} {uid anonId fid : String} {em : Option String}
    {db1 : DB} (huniq : uniqueCatIds db) (href : refIntegrity db)
    (hcommit : mergeTx db uid em anonId = some (fid, db1)) (hne : fid ≠ anonId) :
    (∀ c ∈ db.categories, c.userId = anonId →
      (∃ c1 ∈ db1.categories, c1.id = c.id ∧ c1.userId = fid) ∨
      ((∀ c1 ∈ db1.categories, c1.id ≠ c.id) ∧
       ∃ tgt ∈ db1.categories, tgt.userId = fid ∧
         lowerStr tgt.name = lowerStr c.name ∧
         ∀ t ∈ db.transactions, t.categoryId = some c.id →
           ∃ t1 ∈ db1.transactions, t1.id = t.id ∧ t1.userId = fid ∧
             t1.categoryId = some tgt.id)) ∧
    (∀ t ∈ db.transactions, t.userId = anonId →
      ∃ t1 ∈ db1.transactions, t1.id = t.id ∧ t1.userId = fid) := by
  obtain ⟨u, hl, rfl, rfl⟩ := mergeTx_some_inv hcommit
  exact mergeTxBody_no_data_loss (Ne.symm hne) huniq href

/-- Witness for C1 at the happy-path state. -/
theorem merge_no_data_loss_witness :
    (uniqueCatIds dbHappy ∧ refIntegrity dbHappy ∧
      mergeTx dbHappy "A" (some "a@x") "G" = some ("A", dbHappyMerged) ∧ "A" ≠ "G") ∧
    ((∀ c ∈ dbHappy.categories, c.userId = "G" →
      (∃ c1 ∈ dbHappyMerged.categories, c1.id = c.id ∧ c1.userId = "A") ∨
      ((∀ c1 ∈ dbHappyMerged.categories, c1.id ≠ c.id) ∧
       ∃ tgt ∈ dbHappyMerged.categories, tgt.userId = "A" ∧
         lowerStr tgt.name = lowerStr c.name ∧
         ∀ t ∈ dbHappy.transactions, t.categoryId = some c.id →
           ∃ t1 ∈ dbHappyMerged.transactions, t1.id = t.id ∧ t1.userId = "A" ∧
             t1.categoryId = some tgt.id)) ∧
    (∀ t ∈ dbHappy.transactions, t.userId = "G" →
      ∃ t1 ∈ dbHappyMerged.transactions, t1.id = t.id ∧ t1.userId = "A")) :=
  ⟨⟨by decide, refIntegrity_of_bool (by decide), by decide, by decide⟩,
    @merge_no_data_loss dbHappy "A" "G" "A" (some "a@x") dbHappyMerged
      (by decide) (refIntegrity_of_bool (by decide)) (by decide) (by decide)⟩

/-- C2.  Referential integrity after merge: category reconciliation runs
before the blanket guest-transaction reassignment inside `mergeTxBody`,
and as a consequence every post-merge transaction with a non-null
category reference names an existing category of its own owner. -/
theorem merge_referential_integrity {db : DB} {uid anonId fid : String} {em : Option String}
    {db1 : DB} (huniq : uniqueCatIds db) (href : refIntegrity db)
    (hcommit : mergeTx db uid em anonId = some (fid, db1)) (hne : fid ≠ anonId) :
    refIntegrity db1 := by
  obtain ⟨u, hl, rfl, rfl⟩ := mergeTx_some_inv hcommit
  exact mergeTxBody_refIntegrity (Ne.symm hne) huniq href

/-- Witness for C2 at the happy-path state. -/
theorem merge_referential_integrity_witness :
    (uniqueCatIds dbHappy ∧ refIntegrity dbHappy ∧
      mergeTx dbHappy "A" (some "a@x") "G" = some ("A", dbHappyMerged) ∧ "A" ≠ "G") ∧
    refIntegrity dbHappyMerged :=
  ⟨⟨by decide, refIntegrity_of_bool (by decide), by decide, by decide⟩,
    @merge_referential_integrity dbHappy "A" "G" "A" (some "a@x") dbHappyMerged
      (by decide) (refIntegrity_of_bool (by decide)) (by decide) (by decide)⟩

/-- C3 counterexample: the claim's precondition (category names unique
per owner case-sensitively) holds of `dbCaseDup`, whose authed user owns
`Food` and `FOOD`; the merge commits, yet the post-merge store keeps both
categories for the authed identity with the same lowercased name, so the
claim as stated is false. -/
theorem merge_no_dup_categories_counterexample :
    (∀ c1 ∈ dbCaseDup.categories, ∀ c2 ∈ dbCaseDup.categories,
      c1.userId = c2.userId → c1.name = c2.name → c1 = c2) ∧
    mergeTx dbCaseDup "A" none "G" = some ("A", dbCaseDupMerged) ∧
    (⟨"a1", "A", "Food"⟩ : Category) ∈ dbCaseDupMerged.categories ∧
    (⟨"a2", "A", "FOOD"⟩ : Category) ∈ dbCaseDupMerged.categories ∧
    (⟨"a1", "A", "Food"⟩ : Category) ≠ ⟨"a2", "A", "FOOD"⟩ ∧
    lowerStr "Food" = lowerStr "FOOD" := by
  exact ⟨by decide, by decide, by decide, by decide, by decide, by decide⟩

/-- C3, amended: the pre-merge hypothesis must be case-insensitive
name-distinctness of the authenticated identity's own categories (the
storage layer's case-sensitive uniqueness is not enough, as the
counterexample shows); guest-guest case-insensitive collisions need no
extra hypothesis.  Under it, no two post-merge categories of the authed
identity share a lowercased name. -/
theorem merge_no_dup_categories {db : DB} {uid anonId fid : String} {em : Option String}
    {db1 : DB} (huniq : uniqueCatIds db) (href : refIntegrity db)
    (hdist : authedLowerDistinct db fid)
    (hcommit : mergeTx db uid em anonId = some (fid, db1)) (hne : fid ≠ anonId) :
    (db1.categories.map (fun c => c.id)).Nodup ∧
    ∀ c1 ∈ db1.categories, ∀ c2 ∈ db1.categories,
      c1.userId = fid → c2.userId = fid → c1 ≠ c2 →
      lowerStr c1.name ≠ lowerStr c2.name := by
  obtain ⟨u, hl, rfl, rfl⟩ := mergeTx_some_inv hcommit
  exact mergeTxBody_no_dup (Ne.symm hne) huniq href hdist

/-- Witness for the amended C3 at the happy-path state (a guest-authed
case-insensitive collision: guest `food` against authed `Food`). -/
theorem merge_no_dup_categories_witness :
    (uniqueCatIds dbHappy ∧ refIntegrity dbHappy ∧ authedLowerDistinct dbHappy "A" ∧
      mergeTx dbHappy "A" (some "a@x") "G" = some ("A", dbHappyMerged) ∧ "A" ≠ "G") ∧
    ((dbHappyMerged.categories.map (fun c => c.id)).Nodup ∧
    ∀ c1 ∈ dbHappyMerged.categories, ∀ c2 ∈ dbHappyMerged.categories,
      c1.userId = "A" → c2.userId = "A" → c1 ≠ c2 →
      lowerStr c1.name ≠ lowerStr c2.name) :=
  ⟨⟨by decide, refIntegrity_of_bool (by decide), by decide, by decide, by decide⟩,
    @merge_no_dup_categories dbHappy "A" "G" "A" (some "a@x") dbHappyMerged
      (by decide) (refIntegrity_of_bool (by decide)) (by decide) (by decide) (by decide)⟩

/-- C4.  Merge idempotence: a committed merge deletes every anon session
of the guest, so (token hashes being unique) the same bearer token no
longer resolves, the second invocation returns `noop` at the token-lookup
precondition without performing any write, and running the engine again
on the merged state leaves it unchanged. -/
theorem merge_idempotent {tokenHash : String → String} {db : DB} {raw : String} {now : Int}
    {uid fid : String} {em : Option String} {db1 : DB}
    (huniq : uniqueTokenHashes db)
    (hc : mergeAnonIntoAuthedUser tokenHash db (some raw) now uid em = .committed fid db1) :
    findSessionByTokenHash db1 (tokenHash raw) = none ∧
    mergeAnonIntoAuthedUser tokenHash db1 (some raw) now uid em = .noop ∧
    resultingDb db1 (mergeAnonIntoAuthedUser tokenHash db1 (some raw) now uid em) = db1 := by
  obtain ⟨raw', s, hcook, hfs, hexp, hne1, hne2, hmt⟩ := merge_committed_inv hc
  rw [show raw' = raw from (Option.some.inj hcook).symm] at hfs
  obtain ⟨u, hl, rfl, rfl⟩ := mergeTx_some_inv hmt
  obtain ⟨hsmem, hstok⟩ := findSession_some hfs
  have hsess : (mergeTxBody db s.userId u.id).sessions =
      deleteSessionsOf db.sessions s.userId := by
    rw [mergeTxBody_sessions, mergeCatLoop_sessions]
  have hnone : findSessionByTokenHash (mergeTxBody db s.userId u.id) (tokenHash raw) = none := by
    unfold findSessionByTokenHash
    rw [hsess]
    refine List.find?_eq_none.mpr ?_
    intro s1 hs1 hbeq
    obtain ⟨hs1mem, hs1ne⟩ := mem_deleteSessionsOf.mp hs1
    have hs1tok : s1.tokenHash = tokenHash raw := by simpa using hbeq
    have hs1s : s1 = s :=
      List.inj_on_of_nodup_map huniq hs1mem hsmem (hs1tok.trans hstok.symm)
    exact hs1ne (by rw [hs1s])
  have hnoop : mergeAnonIntoAuthedUser tokenHash (mergeTxBody db s.userId u.id)
      (some raw) now uid em = .noop := by
    simp only [mergeAnonIntoAuthedUser, hnone]
  exact ⟨hnone, hnoop, by rw [hnoop]; rfl⟩

/-- Witness for C4 at the happy-path state. -/
theorem merge_idempotent_witness :
    (uniqueTokenHashes dbHappy ∧
      mergeAnonIntoAuthedUser hashW dbHappy (some "tok") 0 "A" (some "a@x") =
        .committed "A" dbHappyMerged) ∧
    (findSessionByTokenHash dbHappyMerged (hashW "tok") = none ∧
    mergeAnonIntoAuthedUser hashW dbHappyMerged (some "tok") 0 "A" (some "a@x") = .noop ∧
    resultingDb dbHappyMerged
      (mergeAnonIntoAuthedUser hashW dbHappyMerged (some "tok") 0 "A" (some "a@x")) =
      dbHappyMerged) :=
  ⟨⟨by decide, by decide⟩,
    @merge_idempotent hashW dbHappy "tok" 0 "A" "A" (some "a@x") dbHappyMerged
      (by decide) (by decide)⟩

/-- C5.  Merge degradation is error-free and state-preserving: under any
precondition miss — no bearer cookie, hash matching no session, expired
session, guest equal to (or falsy against) the authed id, or the authed
row found neither by id nor by the email fallback — the sign-in event
completes (the handler catches every merge error) and returns the
database unchanged, with no cookie mutation. -/
theorem merge_degradation_noop {tokenHash : String → String} {db : DB} {cookie : Option String}
    {now : Int} {uid : String} {em : Option String}
    (hdeg : cookie = none ∨
      (∃ raw, cookie = some raw ∧ findSessionByTokenHash db (tokenHash raw) = none) ∨
      (∃ raw s, cookie = some raw ∧ findSessionByTokenHash db (tokenHash raw) = some s ∧
        isExpired s.expiresAt now = true) ∨
      (∃ raw s, cookie = some raw ∧ findSessionByTokenHash db (tokenHash raw) = some s ∧
        (s.userId = "" ∨ s.userId = uid)) ∨
      lookupAuthedUser db uid em = none) :
    signInEventRun tokenHash db cookie now uid em = (db, false) := by
  have hnc : ∀ fid db1,
      mergeAnonIntoAuthedUser tokenHash db cookie now uid em ≠ .committed fid db1 := by
    intro fid db1 hcommit
    obtain ⟨raw, s, hcook, hfs, hexp, hne1, hne2, hmt⟩ := merge_committed_inv hcommit
    rcases hdeg with h | ⟨raw2, hc2, hf2⟩ | ⟨raw2, s2, hc2, hf2, hx2⟩ |
      ⟨raw2, s2, hc2, hf2, hx2⟩ | h
    · rw [h] at hcook
      exact Option.noConfusion hcook
    · obtain rfl : raw2 = raw := Option.some.inj (hc2.symm.trans hcook)
      rw [hf2] at hfs
      exact Option.noConfusion hfs
    · obtain rfl : raw2 = raw := Option.some.inj (hc2.symm.trans hcook)
      rw [hf2] at hfs
      obtain rfl : s2 = s := Option.some.inj hfs
      rw [hx2] at hexp
      exact Bool.noConfusion hexp
    · obtain rfl : raw2 = raw := Option.some.inj (hc2.symm.trans hcook)
      rw [hf2] at hfs
      obtain rfl : s2 = s := Option.some.inj hfs
      rcases hx2 with hx | hx
      · exact hne1 hx
      · exact hne2 hx
    · unfold mergeTx at hmt
      rw [h] at hmt
      exact Option.noConfusion hmt
  cases hm : mergeAnonIntoAuthedUser tokenHash db cookie now uid em with
  | noop =>
      unfold signInEventRun
      rw [hm]
      rfl
  | failed =>
      unfold signInEventRun
      rw [hm]
      rfl
  | committed fid db1 => exact absurd hm (hnc fid db1)

/-- Witness for C5: no bearer cookie at all. -/
theorem merge_degradation_noop_witness :
    ((none : Option String) = none ∨
      (∃ raw, (none : Option String) = some raw ∧
        findSessionByTokenHash dbEmpty (hashW raw) = none) ∨
      (∃ raw s, (none : Option String) = some raw ∧
        findSessionByTokenHash dbEmpty (hashW raw) = some s ∧
        isExpired s.expiresAt 0 = true) ∨
      (∃ raw s, (none : Option String) = some raw ∧
        findSessionByTokenHash dbEmpty (hashW raw) = some s ∧
        (s.userId = "" ∨ s.userId = "A")) ∨
      lookupAuthedUser dbEmpty "A" none = none) ∧
    signInEventRun hashW dbEmpty none 0 "A" none = (dbEmpty, false) :=
  ⟨Or.inl rfl, merge_degradation_noop (Or.inl rfl)⟩

/-- C6 counterexample: on the happy-path state the merge transaction
triggered by the sign-in event commits, yet the sign-in caller emits no
clearing `Set-Cookie` header — the `events.signIn` handler never touches
the response; the claim that the caller clears the bearer cookie after a
successful inline merge is false on this code path. -/
theorem signin_cookie_counterexample :
    mergeAnonIntoAuthedUser hashW dbHappy (some "tok") 0 "A" (some "a@x") =
      .committed "A" dbHappyMerged ∧
    (signInEventRun hashW dbHappy (some "tok") 0 "A" (some "a@x")).2 = false :=
  ⟨by decide, rfl⟩

/-- C6, amended: the sign-in event caller never clears the bearer cookie
(commit or not — the committed transaction instead deletes the guest's
anon sessions, C4); it is the import route that clears the cookie exactly
when its transaction commits, and emits no `Set-Cookie` (leaving the
cookie intact for a retry) when its transaction fails. -/
theorem cookie_disposition {tokenHash : String → String} {db : DB} {cookie : Option String}
    {now : Int} {uid : String} {em : Option String} :
    (signInEventRun tokenHash db cookie now uid em).2 = false ∧
    (∀ raw s u, cookie = some raw →
      findSessionByTokenHash db (tokenHash raw) = some s →
      s.userId ≠ "" → isExpired s.expiresAt now = false → s.userId ≠ uid →
      findUserById db uid = some u →
      importPOST tokenHash db (some uid) cookie now =
        some (mergeTxBody db s.userId u.id, 302, true)) ∧
    (∀ raw s, cookie = some raw →
      findSessionByTokenHash db (tokenHash raw) = some s →
      s.userId ≠ "" → isExpired s.expiresAt now = false → s.userId ≠ uid →
      findUserById db uid = none →
      importPOST tokenHash db (some uid) cookie now = none) := by
  refine ⟨rfl, ?_, ?_⟩
  · intro raw s u hcook hfs hne1 hexp hne2 hu
    subst hcook
    have hexp' : ¬ (isExpired s.expiresAt now = true) := by simp [hexp]
    simp only [importPOST, hfs, if_neg hne1, if_neg hexp', if_neg hne2, importTx, hu]
  · intro raw s hcook hfs hne1 hexp hne2 hu
    subst hcook
    have hexp' : ¬ (isExpired s.expiresAt now = true) := by simp [hexp]
    simp only [importPOST, hfs, if_neg hne1, if_neg hexp', if_neg hne2, importTx, hu]

/-- Witness for the amended C6 at the happy-path state. -/
theorem cookie_disposition_witness :
    (signInEventRun hashW dbHappy (some "tok") 0 "A" (some "a@x")).2 = false ∧
    importPOST hashW dbHappy (some "A") (some "tok") 0 =
      some (mergeTxBody dbHappy "G" "A", 302, true) :=
  ⟨(@cookie_disposition hashW dbHappy (some "tok") 0 "A" (some "a@x")).1,
   (@cookie_disposition hashW dbHappy (some "tok") 0 "A" (some "a@x")).2.1 "tok"
     ⟨"s1", "G", "htok", none⟩ ⟨"A", some "a@x", false⟩ rfl (by decide) (by decide)
     (by decide) (by decide) (by decide)⟩

/-- C7 counterexample: in `dbFallback` the authed row exists only under
the email, so the inline merge transaction (which falls back to an email
lookup) commits and moves the guest category, while the import route's
transaction (id lookup only) throws and rolls back — the two state
transformations differ, so "identical algorithm including the email
fallback" is false. -/
theorem import_fallback_counterexample :
    importTx dbFallback "A" "G" = none ∧
    mergeTx dbFallback "A" (some "a@x") "G" =
      some ("A2", { users := [⟨"A2", some "a@x", false⟩], sessions := [],
                    categories := [⟨"g1", "A2", "food"⟩], transactions := [] }) :=
  ⟨by decide, by decide⟩

/-- C7, amended: whenever the authenticated identity is found by id, the
transaction inside `POST /api/anon/import` performs exactly the same
state transformation as the Merge Engine's transaction; the two differ
only in that import lacks the email fallback. -/
theorem import_refines_merge {db : DB} {uid anonId : String} {em : Option String} {u : User}
    (hu : findUserById db uid = some u) :
    importTx db uid anonId = mergeTx db uid em anonId := by
  unfold importTx mergeTx lookupAuthedUser
  rw [hu]

/-- Witness for the amended C7 at the happy-path state. -/
theorem import_refines_merge_witness :
    findUserById dbHappy "A" = some ⟨"A", some "a@x", false⟩ ∧
    importTx dbHappy "A" "G" = mergeTx dbHappy "A" (some "a@x") "G" :=
  ⟨by decide, @import_refines_merge dbHappy "A" "G" (some "a@x")
    ⟨"A", some "a@x", false⟩ (by decide)⟩

/-- C8 counterexample: an unauthenticated request with no bearer cookie
resolves to no owner, yet the transactions-route `GET` (unnamed part_012)
answers `401 Unauthorized` — an error response, not the claimed
empty/guest-shell result. -/
theorem read_error_counterexample :
    getUserIdFromAnonCookie hashW dbEmpty none 0 = none ∧
    getUserIdOrNull hashW dbEmpty none none 0 = none ∧
    transactionsGET hashW dbEmpty none none 0 = .error 401 :=
  ⟨by decide, by decide, by decide⟩

/-- C8, amended: for every unauthenticated read whose bearer cookie is
absent, matches no stored session, or matches an expired one, owner
resolution yields no owner without raising (the resolver is a total
function into `Option`), and the categories `GET` answers the empty list;
the transactions `GET` of part_012, however, answers `401`. -/
theorem read_degradation {tokenHash : String → String} {db : DB} {now : Int}
    {cookie : Option String}
    (hdeg : cookie = none ∨
      (∃ raw, cookie = some raw ∧ findSessionByTokenHash db (tokenHash raw) = none) ∨
      (∃ raw s, cookie = some raw ∧ findSessionByTokenHash db (tokenHash raw) = some s ∧
        isExpired s.expiresAt now = true)) :
    getUserIdFromAnonCookie tokenHash db cookie now = none ∧
    getUserIdOrNull tokenHash db none cookie now = none ∧
    categoriesGET tokenHash db none cookie now = .ok [] ∧
    transactionsGET tokenHash db none cookie now = .error 401 := by
  have hanon : getUserIdFromAnonCookie tokenHash db cookie now = none := by
    rcases hdeg with rfl | ⟨raw, rfl, hf⟩ | ⟨raw, s, rfl, hf, hexp⟩
    · rfl
    · simp only [getUserIdFromAnonCookie, hf]
    · simp [getUserIdFromAnonCookie, hf, hexp]
  have hnull : getUserIdOrNull tokenHash db none cookie now = none := hanon
  refine ⟨hanon, hnull, ?_, ?_⟩
  · simp only [categoriesGET, hnull]
  · simp only [transactionsGET, hnull]

/-- Witness for the amended C8: no cookie at all against the happy-path
state. -/
theorem read_degradation_witness :
    ((none : Option String) = none ∨
      (∃ raw, (none : Option String) = some raw ∧
        findSessionByTokenHash dbHappy (hashW raw) = none) ∨
      (∃ raw s, (none : Option String) = some raw ∧
        findSessionByTokenHash dbHappy (hashW raw) = some s ∧
        isExpired s.expiresAt 0 = true)) ∧
    (getUserIdFromAnonCookie hashW dbHappy none 0 = none ∧
     getUserIdOrNull hashW dbHappy none none 0 = none ∧
     categoriesGET hashW dbHappy none none 0 = .ok [] ∧
     transactionsGET hashW dbHappy none none 0 = .error 401) :=
  ⟨Or.inl rfl, @read_degradation hashW dbHappy 0 none (Or.inl rfl)⟩

/-- C9.  Guest provisioning on write: with no authenticated session and
no resolvable bearer cookie, the write-path resolver creates exactly one
new guest user (`isAnonymous = true`) and exactly one anon session
storing only the hash of the fresh 256-bit token (the plaintext itself is
not persisted anywhere in the new state) with expiry `now` plus 180 days,
leaves every other table untouched, and returns the new owner id together
with a `Set-Cookie` directive carrying the plaintext token with a
`Max-Age` of 180 days. -/
theorem guest_provisioning {tokenHash : String → String} {db : DB} {sess : Option SessUser}
    {cookie : Option String} {now : Int} {freshToken freshUserId freshSessId : String}
    (hauth : getUserIdFromNextAuth db sess = none)
    (hanon : getUserIdFromAnonCookie tokenHash db cookie now = none) :
    getUserIdOrCreateAnonForWrite tokenHash db sess cookie now
        freshToken freshUserId freshSessId =
      ({ db with
          users := db.users ++ [(⟨freshUserId, none, true⟩ : User)],
          sessions := db.sessions ++
            [(⟨freshSessId, freshUserId, tokenHash freshToken,
               some (now + ANON_MAX_AGE_SECONDS * 1000)⟩ : AnonSession)] },
       freshUserId,
       some (⟨"zento_anon", freshToken, ANON_MAX_AGE_SECONDS, true, true⟩ :
         AnonCookieHeader)) ∧
    8 * anonTokenNumBytes = 256 ∧
    ANON_MAX_AGE_SECONDS = 60 * 60 * 24 * 180 := by
  have hnull : getUserIdOrNull tokenHash db sess cookie now = none := by
    unfold getUserIdOrNull
    rw [hauth]
    exact hanon
  refine ⟨?_, by decide, rfl⟩
  unfold getUserIdOrCreateAnonForWrite
  rw [hnull]
  rfl

/-- Witness for C9 on the empty state. -/
theorem guest_provisioning_witness :
    (getUserIdFromNextAuth dbEmpty none = none ∧
     getUserIdFromAnonCookie hashW dbEmpty none 0 = none) ∧
    (getUserIdOrCreateAnonForWrite hashW dbEmpty none none 0 "tok" "U1" "S1" =
      (⟨[⟨"U1", none, true⟩],
        [⟨"S1", "U1", hashW "tok", some (0 + ANON_MAX_AGE_SECONDS * 1000)⟩],
        [], []⟩,
       "U1",
       some ⟨"zento_anon", "tok", ANON_MAX_AGE_SECONDS, true, true⟩) ∧
     8 * anonTokenNumBytes = 256 ∧
     ANON_MAX_AGE_SECONDS = 60 * 60 * 24 * 180) :=
  ⟨⟨rfl, rfl⟩, @guest_provisioning hashW dbEmpty none none 0 "tok" "U1" "S1" rfl rfl⟩

/-- C10.  Discard frame property (route handler spec-modelled, see
`discardPOST`): Discard clears the bearer cookie and deletes every anon
session of the guest the cookie resolves to, while users, categories and
transactions are left exactly as they were (the guest row survives, still
owning its data); repeating Discard with the same cookie changes nothing
further. -/
theorem discard_frame {tokenHash : String → String} {db : DB} {cookie : Option String}
    (huniq : uniqueTokenHashes db) :
    (∀ raw s, cookie = some raw → findSessionByTokenHash db (tokenHash raw) = some s →
      discardPOST tokenHash db cookie =
        ({ db with sessions := deleteSessionsOf db.sessions s.userId }, true)) ∧
    (discardPOST tokenHash db cookie).1.users = db.users ∧
    (discardPOST tokenHash db cookie).1.categories = db.categories ∧
    (discardPOST tokenHash db cookie).1.transactions = db.transactions ∧
    (discardPOST tokenHash db cookie).2 = true ∧
    discardPOST tokenHash (discardPOST tokenHash db cookie).1 cookie =
      ((discardPOST tokenHash db cookie).1, true) := by
  cases cookie with
  | none =>
      refine ⟨?_, rfl, rfl, rfl, rfl, rfl⟩
      intro raw s hcook _
      exact Option.noConfusion hcook
  | some raw =>
      cases hf : findSessionByTokenHash db (tokenHash raw) with
      | none =>
          have hd : discardPOST tokenHash db (some raw) = (db, true) := by
            simp only [discardPOST, hf]
          refine ⟨?_, by rw [hd], by rw [hd], by rw [hd], by rw [hd], ?_⟩
          · intro raw2 s hcook hfs
            obtain rfl : raw2 = raw := (Option.some.inj hcook).symm
            rw [hf] at hfs
            exact Option.noConfusion hfs
          · rw [hd]
            exact hd
      | some s0 =>
          have hd : discardPOST tokenHash db (some raw) =
              ({ db with sessions := deleteSessionsOf db.sessions s0.userId }, true) := by
            simp only [discardPOST, hf]
          obtain ⟨hs0mem, hs0tok⟩ := findSession_some hf
          have hnone : findSessionByTokenHash
              { db with sessions := deleteSessionsOf db.sessions s0.userId }
              (tokenHash raw) = none := by
            unfold findSessionByTokenHash
            refine List.find?_eq_none.mpr ?_
            intro s1 hs1 hbeq
            obtain ⟨hs1mem, hs1ne⟩ := mem_deleteSessionsOf.mp hs1
            have hs1tok : s1.tokenHash = tokenHash raw := by simpa using hbeq
            have hs1s : s1 = s0 :=
              List.inj_on_of_nodup_map huniq hs1mem hs0mem (hs1tok.trans hs0tok.symm)
            exact hs1ne (by rw [hs1s])
          refine ⟨?_, by rw [hd], by rw [hd], by rw [hd], by rw [hd], ?_⟩
          · intro raw2 s hcook hfs
            obtain rfl : raw2 = raw := (Option.some.inj hcook).symm
            rw [hf] at hfs
            obtain rfl := Option.some.inj hfs
            exact hd
          · rw [hd]
            simp only [discardPOST, hnone]

/-- Witness for C10 at the happy-path state. -/
theorem discard_frame_witness :
    uniqueTokenHashes dbHappy ∧
    discardPOST hashW dbHappy (some "tok") =
      ({ dbHappy with sessions := deleteSessionsOf dbHappy.sessions "G" }, true) ∧
    (discardPOST hashW dbHappy (some "tok")).1.users = dbHappy.users ∧
    (discardPOST hashW dbHappy (some "tok")).1.categories = dbHappy.categories ∧
    (discardPOST hashW dbHappy (some "tok")).1.transactions = dbHappy.transactions ∧
    discardPOST hashW (discardPOST hashW dbHappy (some "tok")).1 (some "tok") =
      ((discardPOST hashW dbHappy (some "tok")).1, true) :=
  have h := @discard_frame hashW dbHappy (some "tok") (by decide)
  ⟨by decide, h.1 "tok" ⟨"s1", "G", "htok", none⟩ rfl (by decide),
    h.2.1, h.2.2.1, h.2.2.2.1, h.2.2.2.2.2⟩

end Zento

